import Mathlib

/-
  Verification of the leftist-heap priority queue in src/src/priority_queue.hpp.

  Shallow embedding conventions:
  * A C++ `Node*` tree is a `Tree α`; `nullptr` is `Tree.nil`; a node carries
    its `data`, `left`, `right` and the stored `npl : Int` field.
  * The comparison functor `Compare`, which may throw, is a function
    `cmp : α → α → Option Bool`; `none` models an exception escaping the call.
  * The two exception types of the code, `container_is_empty` and
    `runtime_error`, are the constructors of `PQErr`; `predicateFailure`
    stands for the raw predicate exception so that we can state that the
    public operations never let it escape.
  * Mutating member functions are state-passing: they return the post-call
    container state together with `none` (normal return) or `some err`
    (the exception thrown).  The C++ rollback blocks restore `root`/`count`
    from saved copies; since `mergeNodes` performs every comparison before
    its first mutation, the saved pointers still denote the untouched trees,
    so returning the pre-call functional state is the faithful translation.
-/

namespace Sjtu

inductive Tree (α : Type) where
  | nil : Tree α
  | node : α → Tree α → Tree α → Int → Tree α
deriving DecidableEq

namespace Tree

/-- Translation of `getNpl`: npl of a missing node is -1, otherwise the stored field. -/
def getNpl : Tree α → Int
  | .nil => -1
  | .node _ _ _ n => n

/-- Number of nodes reachable from a root. -/
def size : Tree α → Nat
  | .nil => 0
  | .node _ l r _ => size l + size r + 1

/-- Multiset of elements held in a tree. -/
def elems : Tree α → Multiset α
  | .nil => 0
  | .node d l r _ => d ::ₘ (elems l + elems r)

@[simp] theorem elems_nil : (Tree.nil : Tree α).elems = 0 := rfl

@[simp] theorem elems_node (d : α) (l r : Tree α) (n : Int) :
    (Tree.node d l r n).elems = d ::ₘ (l.elems + r.elems) := rfl

@[simp] theorem size_nil : (Tree.nil : Tree α).size = 0 := rfl

@[simp] theorem size_node (d : α) (l r : Tree α) (n : Int) :
    (Tree.node d l r n).size = l.size + r.size + 1 := rfl

@[simp] theorem getNpl_nil : (Tree.nil : Tree α).getNpl = -1 := rfl

@[simp] theorem getNpl_node (d : α) (l r : Tree α) (n : Int) :
    (Tree.node d l r n).getNpl = n := rfl

end Tree

open Tree

/-- The leftist fix-up performed by `mergeNodes` after the recursive call:
with surviving data `d`, left child `l` and merged right child `m`, swap the
children when `npl(left) < npl(right)` and store `npl = npl(right) + 1`. -/
def fixup (d : α) (l m : Tree α) : Tree α :=
  if getNpl l < getNpl m then Tree.node d m l (getNpl l + 1)
  else Tree.node d l m (getNpl m + 1)

/-- Translation of `mergeNodes`.  `none` propagates a predicate exception;
the code performs no mutation before the exception, so a failing call leaves
both argument trees untouched, which a pure function models for free. -/
def mergeNodes (cmp : α → α → Option Bool) : Tree α → Tree α → Option (Tree α)
  | .nil, h2 => some h2
  | .node d1 l1 r1 n1, .nil => some (Tree.node d1 l1 r1 n1)
  | .node d1 l1 r1 n1, .node d2 l2 r2 n2 =>
    match cmp d1 d2 with
    | none => none
    | some true =>
      (mergeNodes cmp r2 (Tree.node d1 l1 r1 n1)).map (fixup d2 l2)
    | some false =>
      (mergeNodes cmp r1 (Tree.node d2 l2 r2 n2)).map (fixup d1 l1)
termination_by h1 h2 => h1.size + h2.size
decreasing_by
  · simp [Tree.size]; omega
  · simp [Tree.size]; omega

/-- The two exceptions thrown by the container, plus a marker for the raw
predicate exception (which the code always catches and replaces). -/
inductive PQErr where
  | containerIsEmpty : PQErr
  | runtimeError : PQErr
  | predicateFailure : PQErr
deriving DecidableEq

/-- The container: root pointer and element count.  The comparison object is
a stateless type parameter in the source and is passed explicitly here. -/
structure PQ (α : Type) where
  root : Tree α
  count : Nat
deriving DecidableEq

/-- Translation of `push`: allocate a leaf, merge, bump the count; on a
predicate exception restore the saved root and count and throw
`runtime_error`. -/
def push (cmp : α → α → Option Bool) (q : PQ α) (e : α) : PQ α × Option PQErr :=
  match mergeNodes cmp q.root (Tree.node e Tree.nil Tree.nil 0) with
  | some r => (⟨r, q.count + 1⟩, none)
  | none => (q, some PQErr.runtimeError)

/-- Translation of `top`: throws `container_is_empty` on an empty container,
otherwise returns the root element. -/
def top (q : PQ α) : Except PQErr α :=
  match q.root with
  | .nil => Except.error PQErr.containerIsEmpty
  | .node d _ _ _ => Except.ok d

/-- Translation of `pop`: empty check first, then merge the two children;
on a predicate exception restore the saved root and count and throw
`runtime_error`. -/
def pop (cmp : α → α → Option Bool) (q : PQ α) : PQ α × Option PQErr :=
  match q.root with
  | .nil => (q, some PQErr.containerIsEmpty)
  | .node _ l r _ =>
    match mergeNodes cmp l r with
    | some m => (⟨m, q.count - 1⟩, none)
    | none => (q, some PQErr.runtimeError)

/-- Translation of `size`. -/
def PQ.size (q : PQ α) : Nat := q.count

/-- Translation of `empty`. -/
def PQ.isEmpty (q : PQ α) : Bool := q.count == 0

/-- Translation of container-to-container `merge`.  `isSelf` models the
pointer identity test `this == &other`; when the operands are distinct the
trees are merged, the counts added, and `other` is cleared, with full
restoration of both containers and a `runtime_error` on a predicate
exception. -/
def merge (cmp : α → α → Option Bool) (isSelf : Bool) (q other : PQ α) :
    (PQ α × PQ α) × Option PQErr :=
  if isSelf then ((q, other), none)
  else
    match mergeNodes cmp q.root other.root with
    | some m => ((⟨m, q.count + other.count⟩, ⟨Tree.nil, 0⟩), none)
    | none => ((q, other), some PQErr.runtimeError)

/-- A total (never-throwing) predicate, lifted to the exception-aware type. -/
def liftCmp (lt : α → α → Bool) : α → α → Option Bool :=
  fun a b => some (lt a b)

/-- With a never-throwing predicate, `mergeNodes` always returns a tree. -/
theorem mergeNodes_lift_isSome (lt : α → α → Bool) (t1 t2 : Tree α) :
    (mergeNodes (liftCmp lt) t1 t2).isSome := by
  induction t1, t2 using mergeNodes.induct (liftCmp lt) with
  | case1 h2 => simp [mergeNodes]
  | case2 d1 l1 r1 n1 => simp [mergeNodes]
  | case3 d1 l1 r1 n1 d2 l2 r2 n2 hc => simp [liftCmp] at hc
  | case4 d1 l1 r1 n1 d2 l2 r2 n2 hc ih =>
    rw [mergeNodes, hc]
    obtain ⟨m, hm⟩ := Option.isSome_iff_exists.mp ih
    simp [hm]
  | case5 d1 l1 r1 n1 d2 l2 r2 n2 hc ih =>
    rw [mergeNodes, hc]
    obtain ⟨m, hm⟩ := Option.isSome_iff_exists.mp ih
    simp [hm]

/-- The result of a successful merge holds the union of the inputs. -/
theorem elems_mergeNodes (cmp : α → α → Option Bool) (t1 t2 m : Tree α)
    (h : mergeNodes cmp t1 t2 = some m) : m.elems = t1.elems + t2.elems := by
  induction t1, t2 using mergeNodes.induct cmp generalizing m with
  | case1 h2 => simp [mergeNodes] at h; simp [h]
  | case2 d1 l1 r1 n1 =>
    simp [mergeNodes] at h
    simp [← h]
  | case3 d1 l1 r1 n1 d2 l2 r2 n2 hc => rw [mergeNodes, hc] at h; exact absurd h (by simp)
  | case4 d1 l1 r1 n1 d2 l2 r2 n2 hc ih =>
    rw [mergeNodes, hc] at h
    obtain ⟨m0, hm0, rfl⟩ := Option.map_eq_some'.mp h
    have := ih m0 hm0
    unfold fixup
    split <;> simp [this, Tree.elems, Multiset.cons_swap] <;> abel
  | case5 d1 l1 r1 n1 d2 l2 r2 n2 hc ih =>
    rw [mergeNodes, hc] at h
    obtain ⟨m0, hm0, rfl⟩ := Option.map_eq_some'.mp h
    have := ih m0 hm0
    unfold fixup
    split <;> simp [this, Tree.elems, Multiset.cons_swap] <;> abel

theorem card_elems (t : Tree α) : Multiset.card t.elems = t.size := by
  induction t with
  | nil => simp
  | node d l r n ihl ihr => simp [ihl, ihr]

/-- A successful merge has the sizes of its inputs added. -/
theorem size_mergeNodes (cmp : α → α → Option Bool) (t1 t2 m : Tree α)
    (h : mergeNodes cmp t1 t2 = some m) : m.size = t1.size + t2.size := by
  rw [← card_elems, elems_mergeNodes cmp t1 t2 m h]
  simp [card_elems]

/-- Strict weak ordering, as required of the comparison predicate in §6:
irreflexive, transitive, and with transitive incomparability (stated in its
cotransitivity form). -/
structure IsSWO (lt : α → α → Bool) : Prop where
  irrefl : ∀ a, lt a a = false
  trans : ∀ a b c, lt a b = true → lt b c = true → lt a c = true
  cotrans : ∀ a b c, lt a c = true → lt a b = true ∨ lt b c = true

theorem IsSWO.asymm {lt : α → α → Bool} (h : IsSWO lt) (a b : α)
    (hab : lt a b = true) : lt b a = false := by
  by_contra hba
  exact absurd (h.trans a b a hab (by revert hba; cases lt b a <;> simp))
    (by simp [h.irrefl])

theorem IsSWO.nleTrans {lt : α → α → Bool} (h : IsSWO lt) (a b c : α)
    (hab : lt a b = false) (hbc : lt b c = false) : lt a c = false := by
  by_contra hac
  rcases h.cotrans a b c (by revert hac; cases lt a c <;> simp) with h1 | h1 <;>
    simp_all

/-- The element `d` is not smaller than the root of `t` (vacuous when `t` is
absent): the local condition of the heap property for a child slot. -/
def topOK (lt : α → α → Bool) (d : α) : Tree α → Bool
  | .nil => true
  | .node e _ _ _ => !(lt d e)

/-- Heap property of §3: no child compares strictly greater than its parent. -/
def heapP (lt : α → α → Bool) : Tree α → Bool
  | .nil => true
  | .node d l r _ => topOK lt d l && topOK lt d r && heapP lt l && heapP lt r

/-- Leftist property of §3 plus correctness of every stored npl field:
npl(left) ≥ npl(right) and the field holds npl(right) + 1. -/
def nplOK : Tree α → Bool
  | .nil => true
  | .node _ l r n =>
    decide (getNpl r ≤ getNpl l) && (n == getNpl r + 1) && nplOK l && nplOK r

@[simp] theorem topOK_nil (lt : α → α → Bool) (d : α) :
    topOK lt d Tree.nil = true := rfl

@[simp] theorem topOK_node (lt : α → α → Bool) (d e : α) (l r : Tree α) (n : Int) :
    topOK lt d (Tree.node e l r n) = !(lt d e) := rfl

@[simp] theorem topOK_fixup (lt : α → α → Bool) (d e : α) (l m : Tree α) :
    topOK lt d (fixup e l m) = !(lt d e) := by
  unfold fixup; split <;> rfl

@[simp] theorem heapP_nil (lt : α → α → Bool) : heapP lt Tree.nil = true := rfl

@[simp] theorem heapP_node (lt : α → α → Bool) (d : α) (l r : Tree α) (n : Int) :
    heapP lt (Tree.node d l r n) =
      (topOK lt d l && topOK lt d r && heapP lt l && heapP lt r) := rfl

@[simp] theorem nplOK_nil : nplOK (Tree.nil : Tree α) = true := rfl

@[simp] theorem nplOK_node (d : α) (l r : Tree α) (n : Int) :
    nplOK (Tree.node d l r n) =
      (decide (getNpl r ≤ getNpl l) && (n == getNpl r + 1) && nplOK l && nplOK r) := rfl

theorem heapP_fixup (lt : α → α → Bool) (d : α) (l m : Tree α)
    (hl : topOK lt d l = true) (hm : topOK lt d m = true)
    (hhl : heapP lt l = true) (hhm : heapP lt m = true) :
    heapP lt (fixup d l m) = true := by
  unfold fixup; split <;> simp_all

theorem nplOK_fixup (d : α) (l m : Tree α)
    (hl : nplOK l = true) (hm : nplOK m = true) : nplOK (fixup d l m) = true := by
  unfold fixup; split <;> simp_all <;> omega

/-- A successful merge never invents a new root: the top of the result is
dominated by anything dominating both inputs. -/
theorem topOK_mergeNodes (cmp : α → α → Option Bool) (lt : α → α → Bool) (d : α)
    (t1 t2 m : Tree α) (h1 : topOK lt d t1 = true) (h2 : topOK lt d t2 = true)
    (h : mergeNodes cmp t1 t2 = some m) : topOK lt d m = true := by
  induction t1, t2 using mergeNodes.induct cmp generalizing m with
  | case1 h2t => simp [mergeNodes] at h; simp [← h, h2]
  | case2 d1 l1 r1 n1 => simp [mergeNodes] at h; subst h; simp_all
  | case3 d1 l1 r1 n1 d2 l2 r2 n2 hc => rw [mergeNodes, hc] at h; exact absurd h (by simp)
  | case4 d1 l1 r1 n1 d2 l2 r2 n2 hc ih =>
    rw [mergeNodes, hc] at h
    obtain ⟨m0, _, rfl⟩ := Option.map_eq_some'.mp h
    simp_all
  | case5 d1 l1 r1 n1 d2 l2 r2 n2 hc ih =>
    rw [mergeNodes, hc] at h
    obtain ⟨m0, _, rfl⟩ := Option.map_eq_some'.mp h
    simp_all

/-- The merge of two leftist trees is leftist with correct npl fields. -/
theorem nplOK_mergeNodes (cmp : α → α → Option Bool) (t1 t2 m : Tree α)
    (h1 : nplOK t1 = true) (h2 : nplOK t2 = true)
    (h : mergeNodes cmp t1 t2 = some m) : nplOK m = true := by
  induction t1, t2 using mergeNodes.induct cmp generalizing m with
  | case1 h2t => simp [mergeNodes] at h; simp [← h, h2]
  | case2 d1 l1 r1 n1 => simp [mergeNodes] at h; subst h; simp_all
  | case3 d1 l1 r1 n1 d2 l2 r2 n2 hc => rw [mergeNodes, hc] at h; exact absurd h (by simp)
  | case4 d1 l1 r1 n1 d2 l2 r2 n2 hc ih =>
    rw [mergeNodes, hc] at h
    obtain ⟨m0, hm0, rfl⟩ := Option.map_eq_some'.mp h
    simp only [nplOK_node, Bool.and_eq_true] at h1 h2
    exact nplOK_fixup _ _ _ h2.1.2 (ih m0 h2.2 (by simp_all) hm0)
  | case5 d1 l1 r1 n1 d2 l2 r2 n2 hc ih =>
    rw [mergeNodes, hc] at h
    obtain ⟨m0, hm0, rfl⟩ := Option.map_eq_some'.mp h
    simp only [nplOK_node, Bool.and_eq_true] at h1 h2
    exact nplOK_fixup _ _ _ h1.1.2 (ih m0 h1.2 (by simp_all) hm0)

/-- Merging two heaps under a strict weak ordering yields a heap. -/
theorem heapP_mergeNodes (lt : α → α → Bool) (hswo : IsSWO lt) (t1 t2 m : Tree α)
    (h1 : heapP lt t1 = true) (h2 : heapP lt t2 = true)
    (h : mergeNodes (liftCmp lt) t1 t2 = some m) : heapP lt m = true := by
  induction t1, t2 using mergeNodes.induct (liftCmp lt) generalizing m with
  | case1 h2t => simp [mergeNodes] at h; simp [← h, h2]
  | case2 d1 l1 r1 n1 => simp [mergeNodes] at h; subst h; simp_all
  | case3 d1 l1 r1 n1 d2 l2 r2 n2 hc => simp [liftCmp] at hc
  | case4 d1 l1 r1 n1 d2 l2 r2 n2 hc ih =>
    rw [mergeNodes, hc] at h
    obtain ⟨m0, hm0, rfl⟩ := Option.map_eq_some'.mp h
    simp only [liftCmp, Option.some.injEq] at hc
    simp only [heapP_node, Bool.and_eq_true] at h2
    refine heapP_fixup lt d2 l2 m0 h2.1.1.1 ?_ h2.1.2 (ih m0 h2.2 h1 hm0)
    refine topOK_mergeNodes _ lt d2 _ _ m0 h2.1.1.2 ?_ hm0
    simp [hswo.asymm d1 d2 hc]
  | case5 d1 l1 r1 n1 d2 l2 r2 n2 hc ih =>
    rw [mergeNodes, hc] at h
    obtain ⟨m0, hm0, rfl⟩ := Option.map_eq_some'.mp h
    simp only [liftCmp, Option.some.injEq] at hc
    simp only [heapP_node, Bool.and_eq_true] at h1
    refine heapP_fixup lt d1 l1 m0 h1.1.1.1 ?_ h1.1.2 (ih m0 h1.2 h2 hm0)
    refine topOK_mergeNodes _ lt d1 _ _ m0 h1.1.1.2 ?_ hm0
    simp [hc]

/-- The total merge function computed by `mergeNodes` under a
never-throwing predicate. -/
def mergeT (lt : α → α → Bool) (t1 t2 : Tree α) : Tree α :=
  (mergeNodes (liftCmp lt) t1 t2).getD Tree.nil

theorem mergeNodes_lift_eq (lt : α → α → Bool) (t1 t2 : Tree α) :
    mergeNodes (liftCmp lt) t1 t2 = some (mergeT lt t1 t2) := by
  obtain ⟨m, hm⟩ := Option.isSome_iff_exists.mp (mergeNodes_lift_isSome lt t1 t2)
  simp [mergeT, hm]

/-- `push` under a never-throwing predicate (always succeeds). -/
def pushB (lt : α → α → Bool) (q : PQ α) (e : α) : PQ α :=
  (push (liftCmp lt) q e).1

/-- `pop` under a never-throwing predicate. -/
def popB (lt : α → α → Bool) (q : PQ α) : PQ α :=
  (pop (liftCmp lt) q).1

/-- Container-to-container `merge` of two distinct containers under a
never-throwing predicate. -/
def mergeB (lt : α → α → Bool) (q o : PQ α) : PQ α × PQ α :=
  (merge (liftCmp lt) false q o).1

@[simp] theorem pushB_eq (lt : α → α → Bool) (q : PQ α) (e : α) :
    pushB lt q e = ⟨mergeT lt q.root (Tree.node e Tree.nil Tree.nil 0), q.count + 1⟩ := by
  simp [pushB, push, mergeNodes_lift_eq]

theorem popB_nil (lt : α → α → Bool) (q : PQ α) (hq : q.root = Tree.nil) :
    popB lt q = q := by
  simp [popB, pop, hq]

theorem popB_node (lt : α → α → Bool) (q : PQ α) (d : α) (l r : Tree α) (n : Int)
    (hq : q.root = Tree.node d l r n) :
    popB lt q = ⟨mergeT lt l r, q.count - 1⟩ := by
  simp [popB, pop, hq, mergeNodes_lift_eq]

@[simp] theorem mergeB_eq (lt : α → α → Bool) (q o : PQ α) :
    mergeB lt q o = (⟨mergeT lt q.root o.root, q.count + o.count⟩, ⟨Tree.nil, 0⟩) := by
  simp [mergeB, merge, mergeNodes_lift_eq]

/-- Container states reachable by sequences of successful public operations
under a fixed never-throwing predicate, starting from the default
constructor. -/
inductive Reachable (lt : α → α → Bool) : PQ α → Prop where
  | empty : Reachable lt ⟨Tree.nil, 0⟩
  | push (q : PQ α) (e : α) : Reachable lt q → Reachable lt (pushB lt q e)
  | pop (q : PQ α) : Reachable lt q → Reachable lt (popB lt q)
  | mergeRecv (q o : PQ α) : Reachable lt q → Reachable lt o →
      Reachable lt (mergeB lt q o).1

/-- Every reachable state has a leftist tree with correct npl fields. -/
theorem reachable_nplOK {lt : α → α → Bool} {q : PQ α}
    (hr : Reachable lt q) : nplOK q.root = true := by
  induction hr with
  | empty => simp
  | push q e _ ih =>
    simp only [pushB_eq]
    exact nplOK_mergeNodes _ _ _ _ ih (by simp) (mergeNodes_lift_eq lt _ _)
  | pop q _ ih =>
    match hq : q.root with
    | .nil => rw [popB_nil lt q hq]; exact ih
    | .node d l r n =>
      rw [popB_node lt q d l r n hq]
      rw [hq] at ih
      simp only [nplOK_node, Bool.and_eq_true] at ih
      exact nplOK_mergeNodes _ _ _ _ ih.1.2 ih.2 (mergeNodes_lift_eq lt _ _)
  | mergeRecv q o _ _ ihq iho =>
    simp only [mergeB_eq]
    exact nplOK_mergeNodes _ _ _ _ ihq iho (mergeNodes_lift_eq lt _ _)

/-- Every reachable state has a count equal to the number of nodes. -/
theorem reachable_count {lt : α → α → Bool} {q : PQ α}
    (hr : Reachable lt q) : q.count = q.root.size := by
  induction hr with
  | empty => simp
  | push q e _ ih =>
    simp only [pushB_eq]
    rw [size_mergeNodes _ _ _ _ (mergeNodes_lift_eq lt q.root (Tree.node e Tree.nil Tree.nil 0))]
    simp [ih]
  | pop q _ ih =>
    match hq : q.root with
    | .nil => rw [popB_nil lt q hq]; exact ih
    | .node d l r n =>
      rw [popB_node lt q d l r n hq]
      rw [size_mergeNodes _ _ _ _ (mergeNodes_lift_eq lt l r)]
      rw [hq] at ih
      simp at ih
      simp [ih]
  | mergeRecv q o _ _ ihq iho =>
    simp only [mergeB_eq]
    rw [size_mergeNodes _ _ _ _ (mergeNodes_lift_eq lt q.root o.root)]
    simp [ihq, iho]

/-- Every reachable state satisfies the heap property, provided the
predicate is a strict weak ordering. -/
theorem reachable_heapP {lt : α → α → Bool} (hswo : IsSWO lt) {q : PQ α}
    (hr : Reachable lt q) : heapP lt q.root = true := by
  induction hr with
  | empty => simp
  | push q e _ ih =>
    simp only [pushB_eq]
    exact heapP_mergeNodes lt hswo _ _ _ ih (by simp) (mergeNodes_lift_eq lt _ _)
  | pop q _ ih =>
    match hq : q.root with
    | .nil => rw [popB_nil lt q hq]; exact ih
    | .node d l r n =>
      rw [popB_node lt q d l r n hq]
      rw [hq] at ih
      simp only [heapP_node, Bool.and_eq_true] at ih
      exact heapP_mergeNodes lt hswo _ _ _ ih.1.2 ih.2 (mergeNodes_lift_eq lt _ _)
  | mergeRecv q o _ _ ihq iho =>
    simp only [mergeB_eq]
    exact heapP_mergeNodes lt hswo _ _ _ ihq iho (mergeNodes_lift_eq lt _ _)

/-- An element dominating the root of a heap dominates everything in it. -/
theorem heap_dominated {lt : α → α → Bool} (hswo : IsSWO lt) (t : Tree α) :
    ∀ d : α, topOK lt d t = true → heapP lt t = true →
      ∀ x ∈ t.elems, lt d x = false := by
  induction t with
  | nil => intro d _ _ x hx; simp at hx
  | node e l r n ihl ihr =>
    intro d htop hh x hx
    simp only [topOK_node, Bool.not_eq_eq_eq_not, Bool.not_true] at htop
    simp only [heapP_node, Bool.and_eq_true] at hh
    simp only [Tree.elems_node, Multiset.mem_cons, Multiset.mem_add] at hx
    rcases hx with rfl | hx | hx
    · exact htop
    · exact hswo.nleTrans d e x htop (ihl e hh.1.1.1 hh.1.2 x hx)
    · exact hswo.nleTrans d e x htop (ihr e hh.1.1.2 hh.2 x hx)

/-- In a heap under a strict weak ordering, the root does not compare
smaller than any held element. -/
theorem heap_root_max {lt : α → α → Bool} (hswo : IsSWO lt) (d : α)
    (l r : Tree α) (n : Int) (hh : heapP lt (Tree.node d l r n) = true) :
    ∀ x ∈ (Tree.node d l r n).elems, lt d x = false := by
  refine heap_dominated hswo _ d ?_ hh
  simp [hswo.irrefl]

/-- The list of elements obtained by repeatedly reading `top()` and calling
`pop()` until the container is empty or the fuel runs out. -/
def drain (lt : α → α → Bool) : Nat → PQ α → List α
  | 0, _ => []
  | f+1, q =>
    match q.root with
    | .nil => []
    | .node d _ _ _ => d :: drain lt f (popB lt q)

@[simp] theorem drain_zero (lt : α → α → Bool) (q : PQ α) : drain lt 0 q = [] := rfl

theorem drain_succ_nil (lt : α → α → Bool) (f : Nat) (q : PQ α)
    (hq : q.root = Tree.nil) : drain lt (f+1) q = [] := by
  simp [drain, hq]

theorem drain_succ_node (lt : α → α → Bool) (f : Nat) (q : PQ α) (d : α)
    (l r : Tree α) (n : Int) (hq : q.root = Tree.node d l r n) :
    drain lt (f+1) q = d :: drain lt f (popB lt q) := by
  simp [drain, hq]

theorem drain_head {lt : α → α → Bool} {f : Nat} {q : PQ α} {b : α}
    (h : (drain lt f q).head? = some b) :
    ∃ l r n, q.root = Tree.node b l r n := by
  match f with
  | 0 => simp at h
  | f+1 =>
    match hq : q.root with
    | .nil => rw [drain_succ_nil lt f q hq] at h; simp at h
    | .node d l r n =>
      rw [drain_succ_node lt f q d l r n hq] at h
      simp at h
      subst h
      exact ⟨l, r, n, rfl⟩

/-- Successive drained elements are non-increasing under the predicate. -/
theorem drain_chain {lt : α → α → Bool} (hswo : IsSWO lt) (f : Nat) (q : PQ α)
    (hr : Reachable lt q) :
    List.Chain' (fun a b => lt a b = false) (drain lt f q) := by
  induction f generalizing q with
  | zero => simp
  | succ f ih =>
    match hq : q.root with
    | .nil => rw [drain_succ_nil lt f q hq]; simp
    | .node d l r n =>
      rw [drain_succ_node lt f q d l r n hq]
      rw [List.chain'_cons']
      refine ⟨?_, ih (popB lt q) (Reachable.pop q hr)⟩
      intro b hb
      obtain ⟨l', r', n', hq'⟩ := drain_head hb
      rw [popB_node lt q d l r n hq] at hq'
      have hbm : b ∈ (Tree.node d l r n).elems := by
        have he : (mergeT lt l r).elems = l.elems + r.elems :=
          elems_mergeNodes _ _ _ _ (mergeNodes_lift_eq lt l r)
        have : b ∈ (mergeT lt l r).elems := by
          rw [show mergeT lt l r = Tree.node b l' r' n' from hq']
          simp
        rw [he] at this
        simp only [Tree.elems_node, Multiset.mem_cons]
        exact Or.inr this
      have hh : heapP lt (Tree.node d l r n) = true := by
        have := reachable_heapP hswo hr; rw [hq] at this; exact this
      exact heap_root_max hswo d l r n hh b hbm

/-- Draining with fuel equal to the count empties the container exactly:
one element per held node. -/
theorem drain_length {lt : α → α → Bool} (f : Nat) (q : PQ α)
    (hr : Reachable lt q) (hf : q.count = f) :
    (drain lt f q).length = f := by
  induction f generalizing q with
  | zero => simp
  | succ f ih =>
    have hsz : q.root.size = f + 1 := by rw [← reachable_count hr, hf]
    match hq : q.root with
    | .nil => rw [hq] at hsz; simp at hsz
    | .node d l r n =>
      rw [drain_succ_node lt f q d l r n hq]
      simp only [List.length_cons]
      rw [ih (popB lt q) (Reachable.pop q hr) ?_]
      rw [popB_node lt q d l r n hq]
      simp [hf]

/-- The drained elements are exactly the held elements. -/
theorem drain_elems {lt : α → α → Bool} (f : Nat) (q : PQ α)
    (hr : Reachable lt q) (hf : q.count = f) :
    (drain lt f q : Multiset α) = q.root.elems := by
  induction f generalizing q with
  | zero =>
    have hsz : q.root.size = 0 := by rw [← reachable_count hr, hf]
    match hq : q.root with
    | .nil => simp [hq]
    | .node d l r n => rw [hq] at hsz; simp at hsz
  | succ f ih =>
    have hsz : q.root.size = f + 1 := by rw [← reachable_count hr, hf]
    match hq : q.root with
    | .nil => rw [hq] at hsz; simp at hsz
    | .node d l r n =>
      rw [drain_succ_node lt f q d l r n hq]
      have hc : (popB lt q).count = f := by
        rw [popB_node lt q d l r n hq]; simp [hf]
      have := ih (popB lt q) (Reachable.pop q hr) hc
      rw [popB_node lt q d l r n hq] at this
      simp only at this
      have he : (mergeT lt l r).elems = l.elems + r.elems :=
        elems_mergeNodes _ _ _ _ (mergeNodes_lift_eq lt l r)
      rw [popB_node lt q d l r n hq]
      rw [← Multiset.cons_coe, this, he]
      exact (Tree.elems_node d l r n).symm

/-
  Allocation-aware model of `copyTree`, the copy constructor and
  `operator=`.  Every `new Node(...)` receives a fresh identity (a `Nat`),
  and every `delete` of a node is appended to a log of freed identities, so
  leak-freedom (every allocated id freed on failure) and double-free
  (an id occurring twice in the log) are directly observable.  The
  allocation oracle `failAt` names the id whose `new` (allocation or the
  element copy inside it) throws; ids below `failAt` allocate normally.
-/

/-- A heap node with its allocation identity. -/
inductive ITree (α : Type) where
  | nil : ITree α
  | node : Nat → α → ITree α → ITree α → Int → ITree α
deriving DecidableEq

/-- Translation of `deleteTree`: the ids freed, in post-order call order. -/
def idelete : ITree α → List Nat
  | .nil => []
  | .node i _ l r _ => idelete l ++ idelete r ++ [i]

/-- Forget allocation identities, keeping data, structure and npl fields. -/
def eraseIds : ITree α → Tree α
  | .nil => Tree.nil
  | .node _ d l r n => Tree.node d (eraseIds l) (eraseIds r) n

/-- The allocation identities of the nodes of a tree. -/
def iids : ITree α → List Nat
  | .nil => []
  | .node i _ l r _ => i :: (iids l ++ iids r)

/-- Translation of `copyTree`, threading the next fresh id and the freed-id
log.  The branch structure mirrors the source exactly:
the outer handler runs `delete newNode` and rethrows; the inner handler
(which is itself inside the outer `try` block) runs
`deleteTree(newNode->left); delete newNode;` and rethrows, and that rethrow
is caught by the outer handler, which deletes `newNode` once more — hence
the freed-id log gains the new node id twice on the
right-subtree-failure path. -/
def icopy (failAt : Nat) : ITree α → Nat → List Nat → Option (ITree α) × Nat × List Nat
  | .nil, next, log => (some .nil, next, log)
  | .node _ d l r np, next, log =>
    if next = failAt then (none, next, log)
    else
      match icopy failAt l (next+1) log with
      | (none, n2, log2) => (none, n2, log2 ++ [next])
      | (some lC, n2, log2) =>
        match icopy failAt r n2 log2 with
        | (none, n3, log3) => (none, n3, log3 ++ idelete lC ++ [next, next])
        | (some rC, n3, log3) => (some (.node next d lC rC np), n3, log3)

/-- The container over identity-carrying nodes. -/
structure PQI (α : Type) where
  root : ITree α
  count : Nat
deriving DecidableEq

/-- Translation of the copy constructor: `count` is taken from the source
and the tree is deep-copied; an exception from `copyTree` propagates. -/
def copyCtor (failAt : Nat) (src : PQI α) (next : Nat) (log : List Nat) :
    Option (PQI α) × Nat × List Nat :=
  match icopy failAt src.root next log with
  | (some t, n2, log2) => (some ⟨t, src.count⟩, n2, log2)
  | (none, n2, log2) => (none, n2, log2)

/-- Translation of `operator=`: the identity test `this == &other` is the
`isSelf` flag; otherwise the source is cloned first, and only on success is
the old tree of the destination released and the clone installed.  The
returned flag is `true` on normal return, `false` when the exception from
`copyTree` propagates. -/
def assign (failAt : Nat) (isSelf : Bool) (dst src : PQI α) (next : Nat)
    (log : List Nat) : (PQI α × Nat × List Nat) × Bool :=
  if isSelf then ((dst, next, log), true)
  else
    match icopy failAt src.root next log with
    | (none, n2, log2) => ((dst, n2, log2), false)
    | (some t, n2, log2) => ((⟨t, src.count⟩, n2, log2 ++ idelete dst.root), true)

/-- A successful `copyTree` call is a pure clone: it frees nothing, leaves
the log alone, reproduces the source structure (data and npl fields
included) and uses only fresh ids from the given counter on. -/
theorem icopy_some (failAt : Nat) (t : ITree α) :
    ∀ next log tC n2 log2, icopy failAt t next log = (some tC, n2, log2) →
      eraseIds tC = eraseIds t ∧ log2 = log ∧ next ≤ n2 ∧
        ∀ i ∈ iids tC, next ≤ i ∧ i < n2 := by
  induction t with
  | nil =>
    intro next log tC n2 log2 h
    simp [icopy] at h
    obtain ⟨rfl, rfl, rfl⟩ := h
    simp [iids]
  | node i d l r np ihl ihr =>
    intro next log tC n2 log2 h
    rw [icopy] at h
    split at h
    · simp at h
    · rename_i hf
      split at h
      · simp at h
      · rename_i lC na loga hl
        split at h
        · simp at h
        · rename_i rC n3 log3 hrr
          simp at h
          obtain ⟨rfl, rfl, rfl⟩ := h
          obtain ⟨hel, hlogl, hnl, hidl⟩ := ihl _ _ _ _ _ hl
          obtain ⟨her, hlogr, hnr, hidr⟩ := ihr _ _ _ _ _ hrr
          refine ⟨by simp [eraseIds, hel, her], by rw [hlogr, hlogl], by omega, ?_⟩
          intro j hj
          simp [iids] at hj
          rcases hj with rfl | hj | hj
          · omega
          · have := hidl j hj; omega
          · have := hidr j hj; omega

/- Concrete material used by the witness theorems. -/

/-- Natural-number less-than as a Bool predicate (a concrete `Compare`). -/
def ltN : Nat → Nat → Bool := fun a b => decide (a < b)

theorem ltN_swo : IsSWO ltN := by
  refine ⟨fun a => ?_, fun a b c h1 h2 => ?_, fun a b c h1 => ?_⟩ <;>
    simp [ltN] at * <;> omega

/-- A predicate that throws on every comparison. -/
def cmpFail : Nat → Nat → Option Bool := fun _ _ => none

/-- A two-node container used as a concrete pre-call state. -/
def qTwo : PQ Nat := ⟨Tree.node 5 (Tree.node 3 Tree.nil Tree.nil 0) Tree.nil 0, 2⟩

/-- A three-node container whose root has two children, so that `pop`
performs a comparison. -/
def qThree : PQ Nat :=
  ⟨Tree.node 5 (Tree.node 3 Tree.nil Tree.nil 0) (Tree.node 4 Tree.nil Tree.nil 0) 1, 3⟩

/-- C1: if `push`, `pop` or container-to-container `merge` fails because the
comparison predicate threw, the receiving container (and for `merge` the
other container as well) is exactly its pre-call state, and the error
surfaced is the uniform `runtime_error`, not the predicate's own
exception. -/
theorem claim_push_pop_merge_rollback (cmp : α → α → Option Bool) (q o : PQ α) (e : α) :
    ((push cmp q e).2 ≠ none → push cmp q e = (q, some PQErr.runtimeError)) ∧
    (q.root ≠ Tree.nil → (pop cmp q).2 ≠ none →
      pop cmp q = (q, some PQErr.runtimeError)) ∧
    ((merge cmp false q o).2 ≠ none →
      merge cmp false q o = ((q, o), some PQErr.runtimeError)) := by
  refine ⟨?_, ?_, ?_⟩
  · intro h
    cases hm : mergeNodes cmp q.root (Tree.node e Tree.nil Tree.nil 0)
    · simp [push, hm]
    · simp [push, hm] at h
  · intro hroot h
    match hq : q.root with
    | .nil => exact absurd hq hroot
    | .node d l r n =>
      cases hm : mergeNodes cmp l r
      · simp [pop, hq, hm]
      · simp [pop, hq, hm] at h
  · intro h
    cases hm : mergeNodes cmp q.root o.root
    · simp [merge, hm]
    · simp [merge, hm] at h

theorem claim_push_pop_merge_rollback_wit :
    push cmpFail qTwo 4 = (qTwo, some PQErr.runtimeError) ∧
    pop cmpFail qThree = (qThree, some PQErr.runtimeError) ∧
    merge cmpFail false qTwo qThree = ((qTwo, qThree), some PQErr.runtimeError) :=
  ⟨(claim_push_pop_merge_rollback cmpFail qTwo qThree 4).1
      (by simp [push, qTwo, mergeNodes, cmpFail]),
   (claim_push_pop_merge_rollback cmpFail qThree qTwo 4).2.1
      (by simp [qThree]) (by simp [pop, qThree, mergeNodes, cmpFail]),
   (claim_push_pop_merge_rollback cmpFail qTwo qThree 4).2.2
      (by simp [merge, qTwo, qThree, mergeNodes, cmpFail])⟩

/-- C3: a successful merge of two distinct containers of sizes m and n
yields size m+n with the multiset union of both element collections and
leaves `other` empty; merging a container with itself is a silent no-op. -/
theorem claim_merge_union (cmp : α → α → Option Bool) (q o : PQ α) :
    merge cmp true q q = ((q, q), none) ∧
    ((merge cmp false q o).2 = none →
      (merge cmp false q o).1.1.count = q.count + o.count ∧
      (merge cmp false q o).1.1.root.elems = q.root.elems + o.root.elems ∧
      (merge cmp false q o).1.2 = (⟨Tree.nil, 0⟩ : PQ α)) := by
  refine ⟨by simp [merge], ?_⟩
  intro h
  cases hm : mergeNodes cmp q.root o.root
  · simp [merge, hm] at h
  · refine ⟨by simp [merge, hm], ?_, by simp [merge, hm]⟩
    have := elems_mergeNodes _ _ _ _ hm
    simp [merge, hm, this]

theorem claim_merge_union_wit :
    merge (liftCmp ltN) true qTwo qTwo = ((qTwo, qTwo), none) ∧
    (merge (liftCmp ltN) false qTwo qThree).1.1.count = qTwo.count + qThree.count ∧
    (merge (liftCmp ltN) false qTwo qThree).1.1.root.elems =
      qTwo.root.elems + qThree.root.elems ∧
    (merge (liftCmp ltN) false qTwo qThree).1.2 = (⟨Tree.nil, 0⟩ : PQ Nat) :=
  ⟨(claim_merge_union (liftCmp ltN) qTwo qThree).1,
   (claim_merge_union (liftCmp ltN) qTwo qThree).2
      (by simp [merge, mergeNodes_lift_eq])⟩

/-- C5: `top()` and `pop()` raise the empty-container error exactly when the
container holds zero elements; the check precedes any mutation (the state is
unchanged when it fires) and a predicate failure never produces this error;
`top()` on a non-empty container just returns the root element. -/
theorem claim_empty_error (cmp : α → α → Option Bool) (q : PQ α)
    (hinv : q.count = 0 ↔ q.root = Tree.nil) :
    (top q = Except.error PQErr.containerIsEmpty ↔ q.count = 0) ∧
    ((pop cmp q).2 = some PQErr.containerIsEmpty ↔ q.count = 0) ∧
    (q.count = 0 → (pop cmp q).1 = q) ∧
    (∀ d l r n, q.root = Tree.node d l r n → top q = Except.ok d) := by
  match hq : q.root with
  | .nil =>
    have h0 : q.count = 0 := hinv.mpr hq
    refine ⟨by simp [top, hq, h0], by simp [pop, hq, h0], by simp [pop, hq], ?_⟩
    intro d l r n h
    exact absurd h (by simp)
  | .node d0 l0 r0 n0 =>
    have h0 : ¬ q.count = 0 := by
      intro hc
      rw [hinv.mp hc] at hq
      exact absurd hq (by simp)
    refine ⟨by simp [top, hq, h0], ?_, fun hc => absurd hc h0, ?_⟩
    · cases hm : mergeNodes cmp l0 r0
      · simp [pop, hq, hm, h0]
      · simp [pop, hq, hm, h0]
    · intro d l r n h
      have hd : d0 = d := by injection h
      simp [top, hq, hd]

theorem claim_empty_error_wit :
    (top (⟨Tree.nil, 0⟩ : PQ Nat) = Except.error PQErr.containerIsEmpty ↔
      (⟨Tree.nil, 0⟩ : PQ Nat).count = 0) ∧
    ((pop cmpFail ⟨Tree.nil, 0⟩).2 = some PQErr.containerIsEmpty ↔
      (⟨Tree.nil, 0⟩ : PQ Nat).count = 0) ∧
    ((⟨Tree.nil, 0⟩ : PQ Nat).count = 0 → (pop cmpFail ⟨Tree.nil, 0⟩).1 = ⟨Tree.nil, 0⟩) ∧
    (∀ d l r n, (⟨Tree.nil, 0⟩ : PQ Nat).root = Tree.node d l r n →
      top (⟨Tree.nil, 0⟩ : PQ Nat) = Except.ok d) :=
  claim_empty_error cmpFail ⟨Tree.nil, 0⟩ (by simp)

/-- C10: self-assignment is detected by the identity test and is a complete
no-op: the container is unchanged, nothing is allocated (the id counter is
untouched) and nothing is freed (the delete log is untouched), and the call
returns normally. -/
theorem claim_self_assign_noop (failAt : Nat) (q : PQI α) (next : Nat)
    (log : List Nat) :
    assign failAt true q q next log = ((q, next, log), true) := by
  simp [assign]

/-- A reachable two-element container: push 2 then push 1 into a default
container. -/
def qW : PQ Nat := pushB ltN (pushB ltN ⟨Tree.nil, 0⟩ 2) 1

theorem qW_reach : Reachable ltN qW :=
  Reachable.push (pushB ltN ⟨Tree.nil, 0⟩ 2) 1
    (Reachable.push ⟨Tree.nil, 0⟩ 2 Reachable.empty)

theorem qW_eq : qW = ⟨Tree.node 2 (Tree.node 1 Tree.nil Tree.nil 0) Tree.nil 0, 2⟩ := by
  simp [qW, pushB, push, mergeNodes, liftCmp, ltN, fixup, getNpl]

/-- A tree has no nodes exactly when it is absent. -/
theorem size_eq_zero (t : Tree α) : t.size = 0 ↔ t = Tree.nil := by
  cases t <;> simp

/-- C2: after any sequence of successful operations under a non-throwing
strict weak ordering, `top()` of a non-empty container returns its root,
which is a maximum of the held elements; draining by repeated `pop()`
succeeds once per held element, yields the elements in non-increasing
order, and yields exactly the held multiset. -/
theorem claim_top_max_pop_sorted (lt : α → α → Bool) (hswo : IsSWO lt) (q : PQ α)
    (hr : Reachable lt q) (d : α) (l r : Tree α) (n : Int)
    (hq : q.root = Tree.node d l r n) :
    top q = Except.ok d ∧
    (∀ x ∈ q.root.elems, lt d x = false) ∧
    List.Chain' (fun a b => lt a b = false) (drain lt q.count q) ∧
    (drain lt q.count q).length = q.count ∧
    (drain lt q.count q : Multiset α) = q.root.elems := by
  refine ⟨by simp [top, hq], ?_, drain_chain hswo _ q hr,
    drain_length _ q hr rfl, drain_elems _ q hr rfl⟩
  have hh := reachable_heapP hswo hr
  rw [hq] at hh
  intro x hx
  rw [hq] at hx
  exact heap_root_max hswo d l r n hh x hx

theorem claim_top_max_pop_sorted_wit :
    top qW = Except.ok 2 ∧
    (∀ x ∈ qW.root.elems, ltN 2 x = false) ∧
    List.Chain' (fun a b => ltN a b = false) (drain ltN qW.count qW) ∧
    (drain ltN qW.count qW).length = qW.count ∧
    (drain ltN qW.count qW : Multiset Nat) = qW.root.elems :=
  claim_top_max_pop_sorted ltN ltN_swo qW qW_reach 2
    (Tree.node 1 Tree.nil Tree.nil 0) Tree.nil 0 (by rw [qW_eq])

/-- C6: every reachable container state satisfies the heap property: no
child compares strictly greater than its parent under the predicate. -/
theorem claim_reachable_heap (lt : α → α → Bool) (hswo : IsSWO lt) (q : PQ α)
    (hr : Reachable lt q) : heapP lt q.root = true :=
  reachable_heapP hswo hr

theorem claim_reachable_heap_wit : heapP ltN qW.root = true :=
  claim_reachable_heap ltN ltN_swo qW qW_reach

/-- C7: every reachable container state satisfies the leftist property with
npl of an absent node being -1 and every stored npl field equal to
npl(right) + 1; the merge primitive restores this by swapping the children
when npl(left) < npl(right) and then storing the winner's npl. -/
theorem claim_reachable_leftist (lt : α → α → Bool) (q : PQ α)
    (hr : Reachable lt q) :
    nplOK q.root = true ∧
    getNpl (Tree.nil : Tree α) = -1 ∧
    (∀ (d : α) (lc m : Tree α), getNpl lc < getNpl m →
      fixup d lc m = Tree.node d m lc (getNpl lc + 1)) ∧
    (∀ (d : α) (lc m : Tree α), ¬ getNpl lc < getNpl m →
      fixup d lc m = Tree.node d lc m (getNpl m + 1)) :=
  ⟨reachable_nplOK hr, rfl,
   fun d lc m h => by simp [fixup, h],
   fun d lc m h => by simp [fixup, h]⟩

theorem claim_reachable_leftist_wit :
    nplOK qW.root = true ∧
    getNpl (Tree.nil : Tree Nat) = -1 ∧
    (∀ (d : Nat) (lc m : Tree Nat), getNpl lc < getNpl m →
      fixup d lc m = Tree.node d m lc (getNpl lc + 1)) ∧
    (∀ (d : Nat) (lc m : Tree Nat), ¬ getNpl lc < getNpl m →
      fixup d lc m = Tree.node d lc m (getNpl m + 1)) :=
  claim_reachable_leftist ltN qW qW_reach

/-- C8: in every reachable state `count == 0` iff the root is absent and
`count` equals the number of reachable nodes; `size()` and `empty()` report
this faithfully; and every public operation — `push`, `pop`,
container-to-container `merge` (on success and on failure), the copy
constructor and copy assignment (modelled over identity-carrying trees) —
preserves the count invariant. -/
theorem claim_count_invariant (lt : α → α → Bool) (q : PQ α)
    (hr : Reachable lt q) :
    (q.count = 0 ↔ q.root = Tree.nil) ∧
    q.count = q.root.size ∧
    PQ.size q = q.count ∧
    (PQ.isEmpty q = true ↔ q.count = 0) ∧
    (∀ (cmp : α → α → Option Bool) (e : α),
      ((push cmp q e).1).count = ((push cmp q e).1).root.size) ∧
    (∀ cmp : α → α → Option Bool,
      ((pop cmp q).1).count = ((pop cmp q).1).root.size) ∧
    (∀ (cmp : α → α → Option Bool) (o : PQ α), o.count = o.root.size →
      ((merge cmp false q o).1.1).count = ((merge cmp false q o).1.1).root.size ∧
      ((merge cmp false q o).1.2).count = ((merge cmp false q o).1.2).root.size) ∧
    (∀ (failAt next : Nat) (log : List Nat) (p c : PQI α) (n2 : Nat) (log2 : List Nat),
      p.count = (eraseIds p.root).size →
      copyCtor failAt p next log = (some c, n2, log2) →
      c.count = (eraseIds c.root).size) ∧
    (∀ (failAt : Nat) (isSelf : Bool) (dst src : PQI α) (next : Nat) (log : List Nat),
      dst.count = (eraseIds dst.root).size →
      src.count = (eraseIds src.root).size →
      ((assign failAt isSelf dst src next log).1.1).count =
        (eraseIds ((assign failAt isSelf dst src next log).1.1).root).size) := by
  have hc := reachable_count hr
  refine ⟨by rw [hc]; exact size_eq_zero q.root, hc, rfl, by simp [PQ.isEmpty], ?_, ?_, ?_, ?_, ?_⟩
  · intro cmp e
    cases hm : mergeNodes cmp q.root (Tree.node e Tree.nil Tree.nil 0)
    · simp [push, hm, hc]
    · rename_i m
      have := size_mergeNodes _ _ _ _ hm
      simp [push, hm, this, hc]
  · intro cmp
    match hq : q.root with
    | .nil =>
      have h0 : q.count = 0 := by rw [hc, hq]; rfl
      simp [pop, hq, h0]
    | .node d l r n =>
      cases hm : mergeNodes cmp l r
      · simp [pop, hq, hm, hc]
      · rename_i m
        have hs := size_mergeNodes _ _ _ _ hm
        rw [hq] at hc
        simp [pop, hq, hm, hs, hc]
  · intro cmp o ho
    cases hm : mergeNodes cmp q.root o.root
    · simp [merge, hm, hc, ho]
    · rename_i m
      have hs := size_mergeNodes _ _ _ _ hm
      simp [merge, hm, hs, hc, ho]
  · intro failAt next log p c n2 log2 hp hcp
    unfold copyCtor at hcp
    match hic : icopy failAt p.root next log with
    | (none, na, loga) => rw [hic] at hcp; simp at hcp
    | (some t, na, loga) =>
      rw [hic] at hcp
      simp at hcp
      obtain ⟨rfl, _, _⟩ := hcp
      obtain ⟨he, _, _, _⟩ := icopy_some failAt p.root next log t na loga hic
      simp [he, ← hp]
  · intro failAt isSelf dst src next log hdst hsrc
    unfold assign
    cases isSelf
    · simp only [Bool.false_eq_true, if_false]
      match hic : icopy failAt src.root next log with
      | (none, na, loga) => simp [hdst]
      | (some t, na, loga) =>
        obtain ⟨he, _, _, _⟩ := icopy_some failAt src.root next log t na loga hic
        simp [he, ← hsrc]
    · simp [hdst]

theorem claim_count_invariant_wit :
    ((qW.count = 0 ↔ qW.root = Tree.nil) ∧
    qW.count = qW.root.size ∧
    PQ.size qW = qW.count ∧
    (PQ.isEmpty qW = true ↔ qW.count = 0) ∧
    (∀ (cmp : Nat → Nat → Option Bool) (e : Nat),
      ((push cmp qW e).1).count = ((push cmp qW e).1).root.size) ∧
    (∀ cmp : Nat → Nat → Option Bool,
      ((pop cmp qW).1).count = ((pop cmp qW).1).root.size) ∧
    (∀ (cmp : Nat → Nat → Option Bool) (o : PQ Nat), o.count = o.root.size →
      ((merge cmp false qW o).1.1).count = ((merge cmp false qW o).1.1).root.size ∧
      ((merge cmp false qW o).1.2).count = ((merge cmp false qW o).1.2).root.size) ∧
    (∀ (failAt next : Nat) (log : List Nat) (p c : PQI Nat) (n2 : Nat) (log2 : List Nat),
      p.count = (eraseIds p.root).size →
      copyCtor failAt p next log = (some c, n2, log2) →
      c.count = (eraseIds c.root).size) ∧
    (∀ (failAt : Nat) (isSelf : Bool) (dst src : PQI Nat) (next : Nat) (log : List Nat),
      dst.count = (eraseIds dst.root).size →
      src.count = (eraseIds src.root).size →
      ((assign failAt isSelf dst src next log).1.1).count =
        (eraseIds ((assign failAt isSelf dst src next log).1.1).root).size)) :=
  claim_count_invariant ltN qW qW_reach

/-- C9: a successful deep copy clones the source structurally, preserving
data and stored npl fields, frees nothing, and uses only fresh node ids —
so copy and source share no storage: the copy drains to the same observable
sequence, and the copy constructor and (non-self) assignment install
exactly this clone, assignment releasing the old destination tree only
after the clone succeeded. -/
theorem claim_copy_clone (failAt next n2 : Nat) (log log2 : List Nat)
    (src : PQI α) (c : ITree α)
    (h : icopy failAt src.root next log = (some c, n2, log2))
    (hids : ∀ i ∈ iids src.root, i < next) :
    eraseIds c = eraseIds src.root ∧
    log2 = log ∧
    (∀ i ∈ iids c, i ∉ iids src.root) ∧
    copyCtor failAt src next log = (some ⟨c, src.count⟩, n2, log2) ∧
    (∀ dst : PQI α, assign failAt false dst src next log =
      ((⟨c, src.count⟩, n2, log2 ++ idelete dst.root), true)) ∧
    (∀ (lt : α → α → Bool) (f : Nat),
      drain lt f ⟨eraseIds c, src.count⟩ = drain lt f ⟨eraseIds src.root, src.count⟩) := by
  obtain ⟨he, hlog, hn, hid⟩ := icopy_some failAt src.root next log c n2 log2 h
  refine ⟨he, hlog, ?_, by simp [copyCtor, h], fun dst => by simp [assign, h],
    fun lt f => by rw [he]⟩
  intro i hi hmem
  have h1 := (hid i hi).1
  have h2 := hids i hmem
  omega

/-- Concrete source container for the copy witnesses: two nodes with ids
0 and 1, all ids below the fresh counter 10. -/
def srcW : PQI Nat := ⟨ITree.node 0 5 (ITree.node 1 3 ITree.nil ITree.nil 0) ITree.nil 0, 2⟩

theorem claim_copy_clone_wit :
    eraseIds (ITree.node 10 5 (ITree.node 11 3 ITree.nil ITree.nil 0) ITree.nil 0) =
      eraseIds srcW.root ∧
    ([] : List Nat) = [] ∧
    (∀ i ∈ iids (ITree.node 10 5 (ITree.node 11 3 ITree.nil ITree.nil 0) ITree.nil 0),
      i ∉ iids srcW.root) ∧
    copyCtor 999 srcW 10 [] =
      (some ⟨ITree.node 10 5 (ITree.node 11 3 ITree.nil ITree.nil 0) ITree.nil 0,
        srcW.count⟩, 12, []) ∧
    (∀ dst : PQI Nat, assign 999 false dst srcW 10 [] =
      ((⟨ITree.node 10 5 (ITree.node 11 3 ITree.nil ITree.nil 0) ITree.nil 0,
        srcW.count⟩, 12, [] ++ idelete dst.root), true)) ∧
    (∀ (lt : Nat → Nat → Bool) (f : Nat),
      drain lt f ⟨eraseIds (ITree.node 10 5 (ITree.node 11 3 ITree.nil ITree.nil 0)
        ITree.nil 0), srcW.count⟩ =
      drain lt f ⟨eraseIds srcW.root, srcW.count⟩) :=
  claim_copy_clone 999 10 12 [] []
    srcW (ITree.node 10 5 (ITree.node 11 3 ITree.nil ITree.nil 0) ITree.nil 0)
    (by decide) (by decide)

/-- Concrete source for the failed-copy evaluation: a root with two
children; the third allocation (the copy of the right child) throws. -/
def srcBug : PQI Nat :=
  ⟨ITree.node 100 10 (ITree.node 101 20 ITree.nil ITree.nil 0)
    (ITree.node 102 30 ITree.nil ITree.nil 0) 1, 3⟩

/-- C4 is violated by the code: when the recursive copy of the right child
throws, the inner handler frees the copied left subtree (id 1) and the new
root (id 0) and rethrows; the rethrow is caught by the outer handler of the
same function, which frees the new root again.  The freed-id log of the
failing copy is [1, 0, 0]: id 0 is released twice, a double free. -/
theorem claim_copy_double_free :
    (copyCtor 2 srcBug 0 []).1 = none ∧
    (copyCtor 2 srcBug 0 []).2.2 = [1, 0, 0] ∧
    ((copyCtor 2 srcBug 0 []).2.2).count 0 = 2 := by
  refine ⟨rfl, rfl, rfl⟩

end Sjtu
